import Mathlib

set_option maxRecDepth 100000
set_option maxHeartbeats 1000000

/-!
# A verification development for the parthial Lisp interpreter

This file embeds the evaluation core of the parthial interpreter
(`vals.py`, `context.py`, `built_ins.py`, and the error taxonomy of
`parthial/errs.py`) into Lean and proves properties of the embedding.

Modelling conventions:

* Python objects that hold mutable dictionaries (the scope frames of a
  `ChainMap`) are modelled by a heap: `EvalContext.store` is a list of
  frames and a scope chain is a list of indices into the store.  Two
  chains that share an index alias the same mutable frame, exactly as
  two `ChainMap`s sharing a dict do.
* Exceptions are modelled by `Except`; since a raised exception leaves
  the mutated `EvalContext` observable to the host, every operation
  returns the context alongside the `Except` result.
* `@contextmanager` generators without `try/finally` (as in
  `EvalContext.scopes_as` / `new_scope`) do **not** run the code after
  `yield` when the body raises; the embedding mirrors this by restoring
  `scopes` only on the success path of a closure call.
* The recursive evaluator is embedded with a structural fuel parameter;
  `.fuelOut` is an artifact of the embedding, never a behaviour of the
  source.  Fuel-stability and fuel-adequacy lemmas below show that for
  enough fuel the artifact never occurs, which is exactly the
  termination guarantee of the source's step/depth counters.
-/

namespace Parthial

/-- The core built-in operations of `built_ins.py` (the `built_ins` dict). -/
inductive BI where
  | evalB | applyB | progn | quote | lambda | setB | ifB | cons
deriving DecidableEq, Repr

/-- `LispBuiltin.quotes`: which builtins receive their arguments unevaluated.
Mirrors the `quotes=True` registrations in `built_ins.py`. -/
def BI.quotes : BI → Bool
  | .quote | .lambda | .setB | .ifB => true
  | _ => false

/-- `LispBuiltin.name` as registered in `built_ins.py`. -/
def BI.name : BI → String
  | .evalB => "eval"
  | .applyB => "apply"
  | .progn => "progn"
  | .quote => "quote"
  | .lambda => "lambda"
  | .setB => "set"
  | .ifB => "if"
  | .cons => "cons"

/-- Runtime values (`vals.py`): `LispSymbol`, `LispList`, `LispFunc`,
`LispBuiltin`.  A closure's `clos` is its captured scope chain: a list of
frame indices into the context's store (sharing a `ChainMap`'s dicts). -/
inductive LispVal where
  | sym (s : String)
  | list (xs : List LispVal)
  | func (pars : List String) (body : LispVal) (name : String) (clos : List Nat)
  | builtin (b : BI)

/-- `LispSymbol.FALSES` from `vals.py`. -/
def FALSES : List String := ["", "false", "no", "off", "0", "null", "undefined", "nan"]

/-- Python `str.lower()` (the ASCII fragment, like `String.toLower`:
`Char.toLower` maps `A`–`Z` and fixes everything else), written as a map
over the character list so that it evaluates inside the kernel. -/
def pyLower (s : String) : String := ⟨s.data.map Char.toLower⟩

/-- Python truthiness of the four value classes:
`LispSymbol.__bool__`, `LispVal.__bool__` on a list (`bool([...])`),
`LispFunc.__bool__`, and a `LispBuiltin` whose `val` is a function object
(function objects are truthy). -/
def LispVal.truthy : LispVal → Bool
  | .sym s => !(FALSES.contains (pyLower s))
  | .list xs => !xs.isEmpty
  | .func _ _ _ _ => true
  | .builtin _ => true

/-- `callable(f)` on the four value classes: only `LispFunc` and
`LispBuiltin` define `__call__`. -/
def LispVal.callable : LispVal → Bool
  | .func _ _ _ _ => true
  | .builtin _ => true
  | _ => false

/-- The `quotes` attribute consulted by `LispList.eval`.  `LispFunc.quotes`
is the class attribute `False`; a builtin carries its own flag.  (Other
values never reach this attribute access: it is guarded by `callable`.) -/
def LispVal.quotes : LispVal → Bool
  | .builtin b => b.quotes
  | _ => false

/-- Elements of a list value (used to unpack the result of argument
evaluation; a non-list never occurs there). -/
def LispVal.elems : LispVal → List LispVal
  | .list xs => xs
  | _ => []

/-- A scope frame: one Python dict mapping names to values. -/
abbrev Frame := List (String × LispVal)

/-- Dict lookup in one frame. -/
def lookupFrame : Frame → String → Option LispVal
  | [], _ => none
  | (k1, v1) :: rest, k => if k1 = k then some v1 else lookupFrame rest k

/-- Dict assignment `d[k] = v` in one frame: overwrite an existing key in
place, otherwise append the new binding. -/
def frameSet : Frame → String → LispVal → Frame
  | [], k, v => [(k, v)]
  | (k1, v1) :: rest, k, v =>
      if k1 = k then (k1, v) :: rest else (k1, v1) :: frameSet rest k v

/-- Dereference a frame index in the heap (an index held by a scope chain
is always in range in the source; the empty frame is a vacuous default). -/
def getFrame : List Frame → Nat → Frame
  | [], _ => []
  | f :: _, 0 => f
  | _ :: rest, i+1 => getFrame rest i

/-- Overwrite the frame at an index of the heap (in-place mutation of the
dict that every chain holding this index observes). -/
def setStore : List Frame → Nat → Frame → List Frame
  | [], _, _ => []
  | _ :: rest, 0, x => x :: rest
  | f :: rest, i+1, x => f :: setStore rest i x

/-- `ChainMap` lookup: search the chain's frames in order, first hit wins
(`EvalContext.__getitem__` / `__contains__` in `context.py`). -/
def chainLookup (store : List Frame) : List Nat → String → Option LispVal
  | [], _ => none
  | i :: rest, k =>
      match lookupFrame (getFrame store i) k with
      | some v => some v
      | none => chainLookup store rest k

/-- The interpreter state of `context.py`'s `EvalContext`: the frame heap,
the visible scope chain (innermost first, `ChainMap.maps`), the depth and
step counters with their limits, and the live-value tracker's count with
its limit (`len(self.things)` / `max_things`). -/
structure EvalContext where
  store : List Frame
  scopes : List Nat
  depth : Nat
  steps : Nat
  maxDepth : Nat
  maxSteps : Nat
  things : Nat
  maxThings : Nat

/-- `EvalContext.__init__`: `self.scopes = ChainMap({}, globals)` — a fresh
innermost frame in front of the globals frame. -/
def EvalContext.init (globals : Frame) (maxDepth maxSteps maxThings : Nat) : EvalContext :=
  { store := [globals, []]
    scopes := [1, 0]
    depth := 0
    steps := 0
    maxDepth := maxDepth
    maxSteps := maxSteps
    things := 0
    maxThings := maxThings }

/-- `EvalContext.__getitem__` / `__contains__`: chain lookup through the
visible scopes. -/
def EvalContext.getVar (c : EvalContext) (k : String) : Option LispVal :=
  chainLookup c.store c.scopes k

/-- `EvalContext.__setitem__`: `ChainMap.__setitem__` writes `maps[0]`, the
innermost frame, only.  (A `ChainMap` always has at least one map, so the
empty-chain branch is unreachable in the source.) -/
def EvalContext.setVar (c : EvalContext) (k : String) (v : LispVal) : EvalContext :=
  match c.scopes with
  | [] => c
  | i :: _ => { c with store := setStore c.store i (frameSet (getFrame c.store i) k v) }

/-- `EvalContext.new`: the live-value quota check, then registration of a
freshly constructed value in the `WeakSet` (modelled by a count, i.e. no
collection happens during the evaluation). -/
def EvalContext.new (c : EvalContext) : Except Unit EvalContext :=
  if c.maxThings ≤ c.things then .error ()
  else .ok { c with things := c.things + 1 }

/-- `dict(zip(self.pars, args))` of `LispFunc.__call__`: later duplicate
parameters overwrite earlier ones, like repeated dict insertion. -/
def bindPars (pars : List String) (args : List LispVal) : Frame :=
  (pars.zip args).foldl (fun fr kv => frameSet fr kv.1 kv.2) []

/-- The interpreter errors: `InterpreterError` of `context.py`, `LispError`
of `vals.py`/`built_ins.py`, an uncaught Python-level exception (`host`),
and the fuel artifact of the embedding (`fuelOut`, not a source
behaviour; see the adequacy lemmas). -/
inductive LispErr where
  | interp (msg : String)
  | lisp (msg : String)
  | host (msg : String)
  | fuelOut
deriving DecidableEq, Repr

/-- The mutually recursive entry points of the evaluator, fused into one
task type so the whole evaluator is one structurally recursive function:
`ev` is `EvalContext.eval`, `vEv` is the dynamic dispatch `expr.eval(env)`,
`evArgs` is `list(map(env.eval, args))`, `app` is `f(args, env)`, and
`appBI` is the body of the named builtin from `built_ins.py`. -/
inductive Task where
  | ev (e : LispVal)
  | vEv (e : LispVal)
  | evArgs (xs : List LispVal)
  | app (f : LispVal) (args : List LispVal)
  | appBI (b : BI) (args : List LispVal)

/-- The evaluator.  Each clause is a direct transcription of the source:

* `ev`: `EvalContext.eval` — the depth check, the step check, incrementing
  both counters, dispatching, and decrementing depth **only on the
  success path** (`self.depth -= 1` is skipped by a raise).
* `vEv`: `LispSymbol.eval`, `LispList.eval`, and the base
  `LispVal.eval(self)` — the base method takes no environment argument,
  so evaluating a closure or builtin node raises a Python `TypeError`.
* `evArgs`: left-to-right evaluation of an argument list.
* `app` on a closure: `LispFunc.__call__` — arity check, `dict(zip(...))`,
  then `with env.scopes_as(self.clos), env.new_scope(arg_scope)`.
  The two context managers lack `try/finally`, so the caller's chain is
  written back only when the body returns normally.
* `appBI`: the eight builtins of `built_ins.py`, checks in source order. -/
def step : Nat → EvalContext → Task → Except LispErr LispVal × EvalContext
  | 0, c, _ => (.error .fuelOut, c)
  | Nat.succ n, c, t =>
    match t with
    | .ev e =>
      if c.maxDepth ≤ c.depth then (.error (.interp "too much nesting"), c)
      else if c.maxSteps ≤ c.steps then (.error (.interp "too many steps"), c)
      else
        match step n { c with depth := c.depth + 1, steps := c.steps + 1 } (.vEv e) with
        | (.ok v, c2) => (.ok v, { c2 with depth := c2.depth - 1 })
        | (.error err, c2) => (.error err, c2)
    | .vEv e =>
      match e with
      | .sym s =>
        match c.getVar s with
        | some v => (.ok v, c)
        | none => (.error (.lisp "nonexistent variable"), c)
      | .list [] => (.ok (.list []), c)
      | .list (h :: t1) =>
        match step n c (.ev h) with
        | (.error err, c1) => (.error err, c1)
        | (.ok f, c1) =>
          if f.callable then
            if f.quotes then step n c1 (.app f t1)
            else
              match step n c1 (.evArgs t1) with
              | (.error err, c2) => (.error err, c2)
              | (.ok vs, c2) => step n c2 (.app f vs.elems)
          else (.error (.lisp "non-callable value in application"), c1)
      | .func _ _ _ _ => (.error (.host "TypeError"), c)
      | .builtin _ => (.error (.host "TypeError"), c)
    | .evArgs xs =>
      match xs with
      | [] => (.ok (.list []), c)
      | x :: rest =>
        match step n c (.ev x) with
        | (.error err, c1) => (.error err, c1)
        | (.ok v, c1) =>
          match step n c1 (.evArgs rest) with
          | (.error err, c2) => (.error err, c2)
          | (.ok vs, c2) => (.ok (.list (v :: vs.elems)), c2)
    | .app f args =>
      match f with
      | .func pars body nm clos =>
        if args.length = pars.length then
          let fid := c.store.length
          let c2 := { c with store := c.store ++ [bindPars pars args],
                             scopes := fid :: clos }
          match step n c2 (.ev body) with
          | (.ok v, c3) => (.ok v, { c3 with scopes := c.scopes })
          | (.error err, c3) => (.error err, c3)
        else (.error (.lisp ("wrong number of args given to " ++ nm)), c)
      | .builtin b => step n c (.appBI b args)
      | _ => (.error (.host "TypeError"), c)
    | .appBI b args =>
      match b with
      | .evalB =>
        match args with
        | [a] => step n c (.ev a)
        | _ => (.error (.lisp "wrong number of args given to eval"), c)
      | .applyB =>
        match args with
        | [f, xs] =>
          if f.callable then
            match xs with
            | .list l => step n c (.app f l)
            | _ => (.error (.lisp "second argument to apply not a list"), c)
          else (.error (.lisp "non-callable value in application"), c)
        | _ => (.error (.lisp "wrong number of args given to apply"), c)
      | .progn =>
        match args.getLast? with
        | some v => (.ok v, c)
        | none => (.error (.lisp "no args given to progn"), c)
      | .quote =>
        match args with
        | [x] => (.ok x, c)
        | _ => (.error (.lisp "wrong number of args given to quote"), c)
      | .lambda =>
        match args with
        | [ps, body] =>
          match ps with
          | .list pl =>
            if pl.all (fun p => match p with | .sym _ => true | _ => false) then
              match c.new with
              | .ok c1 =>
                (.ok (.func (pl.filterMap (fun p => match p with | .sym s => some s | _ => none))
                      body "anonymous function" c.scopes), c1)
              | .error _ => (.error (.interp "too many things"), c)
            else (.error (.lisp "first argument to lambda not a list of symbols"), c)
          | _ => (.error (.lisp "first argument to lambda not a list"), c)
        | _ => (.error (.lisp "wrong number of args given to lambda"), c)
      | .setB =>
        match args with
        | [nm, vexpr] =>
          match nm with
          | .sym s =>
            match step n c (.ev vexpr) with
            | (.ok v, c1) => (.ok v, c1.setVar s v)
            | (.error err, c1) => (.error err, c1)
          | _ => (.error (.lisp "first argument to set not a symbol"), c)
        | _ => (.error (.lisp "wrong number of args given to set"), c)
      | .ifB =>
        match args with
        | [cond, i, t1] =>
          match step n c (.ev cond) with
          | (.ok v, c1) => if v.truthy then step n c1 (.ev i) else step n c1 (.ev t1)
          | (.error err, c1) => (.error err, c1)
        | _ => (.error (.lisp "wrong number of args given to if"), c)
      | .cons =>
        match args with
        | [h, t1] =>
          match t1 with
          | .list l =>
            match c.new with
            | .ok c1 => (.ok (.list (h :: l)), c1)
            | .error _ => (.error (.interp "too many things"), c)
          | _ => (.error (.lisp "second argument to cons not a list"), c)
        | _ => (.error (.lisp "wrong number of args given to cons"), c)

/-- The global frame a host populates with the `built_ins` dict. -/
def builtinsFrame : Frame :=
  [("eval", .builtin .evalB), ("apply", .builtin .applyB),
   ("progn", .builtin .progn), ("quote", .builtin .quote),
   ("lambda", .builtin .lambda), ("set", .builtin .setB),
   ("if", .builtin .ifB), ("cons", .builtin .cons)]

/-- A standard session context over the builtins. -/
def stdCtx (maxDepth maxSteps maxThings : Nat) : EvalContext :=
  EvalContext.init builtinsFrame maxDepth maxSteps maxThings

/-! ## Concrete programs used by the claims -/

/-- `((lambda () x))`: a closure call whose body raises a name error. -/
def c1errProg : LispVal := .list [.list [.sym "lambda", .list [], .sym "x"]]

/-- `((lambda () (quote y)))`: a closure call that returns normally. -/
def c1okProg : LispVal := .list [.list [.sym "lambda", .list [], .list [.sym "quote", .sym "y"]]]

/-- `(progn (set n (quote old)) (set f (lambda () n)) (f))`: call the
closure before `n` is reassigned. -/
def c2progBefore : LispVal :=
  .list [.sym "progn",
    .list [.sym "set", .sym "n", .list [.sym "quote", .sym "old"]],
    .list [.sym "set", .sym "f", .list [.sym "lambda", .list [], .sym "n"]],
    .list [.sym "f"]]

/-- `(progn (set n (quote old)) (set f (lambda () n)) (set n (quote new)) (f))`:
reassign `n` in the defining scope after the closure is built, then call it. -/
def c2progAfter : LispVal :=
  .list [.sym "progn",
    .list [.sym "set", .sym "n", .list [.sym "quote", .sym "old"]],
    .list [.sym "set", .sym "f", .list [.sym "lambda", .list [], .sym "n"]],
    .list [.sym "set", .sym "n", .list [.sym "quote", .sym "new"]],
    .list [.sym "f"]]

/-- `(if (quote x) (set a (quote one)) (set b (quote two)))` — truthy test. -/
def c5progT : LispVal :=
  .list [.sym "if", .list [.sym "quote", .sym "x"],
    .list [.sym "set", .sym "a", .list [.sym "quote", .sym "one"]],
    .list [.sym "set", .sym "b", .list [.sym "quote", .sym "two"]]]

/-- `(if (quote off) (set a (quote one)) (set b (quote two)))` — falsy test
(`"off"` is in `FALSES`). -/
def c5progF : LispVal :=
  .list [.sym "if", .list [.sym "quote", .sym "off"],
    .list [.sym "set", .sym "a", .list [.sym "quote", .sym "one"]],
    .list [.sym "set", .sym "b", .list [.sym "quote", .sym "two"]]]

/-- `(cons (quote a) (quote (b c)))`. -/
def c9prog : LispVal :=
  .list [.sym "cons", .list [.sym "quote", .sym "a"],
    .list [.sym "quote", .list [.sym "b", .sym "c"]]]

/-- `(lambda (f) (f f))`. -/
def ffLam : LispVal :=
  .list [.sym "lambda", .list [.sym "f"], .list [.sym "f", .sym "f"]]

/-- `((lambda (f) (f f)) (lambda (f) (f f)))`: unbounded self-application. -/
def selfApp : LispVal := .list [ffLam, ffLam]

/-! ## Termination apparatus

The fuel parameter of `step` is an artifact of the embedding; the
definitions below let us state that it is harmless: for every context and
task there is a fuel bound past which the result is fixed and is not the
fuel artifact.  That statement is the termination guarantee of the
source's step/depth counters. -/

/-- Ordering phase of a task (the dynamic dispatch `vEv` may call into a
closure application with freshly evaluated, arbitrarily large arguments,
so it sits above everything else at equal remaining step budget). -/
def Task.phase : Task → Nat
  | .vEv _ => 1
  | _ => 0

mutual
/-- Structural size of a value (the auto-generated `SizeOf` for the nested
inductive is noncomputable, so the measure is spelled out). -/
def LispVal.size : LispVal → Nat
  | .sym _ => 1
  | .builtin _ => 1
  | .func _ body _ _ => 1 + LispVal.size body
  | .list xs => 1 + sizeVals xs

/-- Structural size of a value list. -/
def sizeVals : List LispVal → Nat
  | [] => 1
  | v :: vs => 1 + LispVal.size v + sizeVals vs
end

/-- The structural size of a task's pending argument data. -/
def Task.weight : Task → Nat
  | .evArgs xs => sizeVals xs
  | .app _ args => sizeVals args
  | .appBI _ args => sizeVals args
  | _ => 0

/-- Tie-breaking tag: a builtin application may re-enter `app` (via the
`apply` builtin) only on structurally smaller arguments. -/
def Task.tag : Task → Nat
  | .evArgs _ => 1
  | .appBI _ _ => 2
  | .app _ _ => 3
  | _ => 0

/-- A context/task pair converges: some fuel bound fixes the result, the
result is not the fuel artifact, and evaluation never decreases the step
counter nor changes the step limit. -/
def Converges (c : EvalContext) (t : Task) : Prop :=
  ∃ n r, (∀ m, n ≤ m → step m c t = r)
    ∧ r.1 ≠ .error .fuelOut
    ∧ c.steps ≤ r.2.steps
    ∧ r.2.maxSteps = c.maxSteps

/-- A resource-limit outcome: either a genuine `InterpreterError` of the
source or the embedding's fuel artifact (which convergence rules out at
adequate fuel). -/
def limitRes (r : Except LispErr LispVal) : Prop :=
  r = .error .fuelOut ∨ ∃ msg, r = .error (.interp msg)

/-- `(f f)`: the body of the self-application lambda. -/
def ffBody : LispVal := .list [.sym "f", .sym "f"]

/-- A context in mid self-application: `f` is bound to a one-parameter
closure whose body is `(f f)`. -/
def SelfAppInv (c : EvalContext) : Prop :=
  ∃ nm clos, c.getVar "f" = some (.func ["f"] ffBody nm clos)

/-! ## The `ArgCountError` of `parthial/errs.py` -/

/-- `ArgCountError.__init__(f, got, ex=None)` stores the callable (here its
display name), the expected count — defaulting to `len(f.pars)` — and the
actual count; `message` renders all three. -/
structure ArgCountError where
  f : String
  ex : Nat
  got : Nat
deriving DecidableEq, Repr

/-- Modelled from the spec: the packaged `parthial/vals.py` (whose
`LispFunc.__call__` raises `ArgCountError`) is not in the source tree, only
its error declaration `parthial/errs.py` is.  Per §4.3 of the spec, a
closure call first requires the argument count to equal the parameter
count, and otherwise raises an arg-count error naming the closure and both
counts, before any parameter is bound or the body evaluated; the expected
count defaults to `len(f.pars)` as in `ArgCountError.__init__`. -/
def parthialCallCheck (pars : List String) (name : String) (args : List LispVal) :
    Option ArgCountError :=
  if args.length ≠ pars.length then some ⟨name, pars.length, args.length⟩ else none

/-! ## The quota registrar (`new` / `rec_new` of `context.py` and
`parthial/context.py`) -/

/-- An object-graph node for quota registration: Python object identity is
modelled by a numeric id, and `children` is the `children()` list. -/
inductive ObjTree where
  | node (id : Nat) (children : List ObjTree)

/-- The live-value tracker: the set of ids of registered objects (the
`WeakSet`, whose membership is object identity) with its configured
maximum. -/
structure Things where
  things : Finset Nat
  maxThings : Nat
deriving DecidableEq

/-- `new(val)`: the quota check `len(self.things) >= self.max_things`
happens before — and regardless of — membership of `val`; on success the
value is added (`WeakSet.add` is idempotent on members) and returned. -/
def Things.new (st : Things) (v : Nat) : Except Unit Things :=
  if st.maxThings ≤ st.things.card then .error ()
  else .ok { st with things := insert v st.things }

mutual
/-- `rec_new(val)`: register the children depth-first, then the value
itself.  An exception propagates; everything registered before it stays
registered, so the error payload is the tracker state at the moment the
exception escapes. -/
def recNew (st : Things) : ObjTree → Except Things Things
  | .node i cs =>
    match recNewList st cs with
    | .error st1 => .error st1
    | .ok st1 =>
      match st1.new i with
      | .ok st2 => .ok st2
      | .error _ => .error st1

/-- Registration of a `children()` list, left to right. -/
def recNewList (st : Things) : List ObjTree → Except Things Things
  | [] => .ok st
  | c :: rest =>
    match recNew st c with
    | .error st1 => .error st1
    | .ok st1 => recNewList st1 rest
end

/-! ## Theorems -/

/-- C8: Truthiness is exactly: the empty List is false and every non-empty
List is true; a Symbol is false if and only if its text, lowercased, is one
of `""`, `"false"`, `"no"`, `"off"`, `"0"`, `"null"`, `"undefined"`,
`"nan"`; every Closure and every Builtin is true. -/
theorem c8_truthiness :
    LispVal.truthy (.list []) = false
    ∧ (∀ x xs, LispVal.truthy (.list (x :: xs)) = true)
    ∧ (∀ s, LispVal.truthy (.sym s) = false ↔
        pyLower s ∈ ["", "false", "no", "off", "0", "null", "undefined", "nan"])
    ∧ (∀ pars body nm clos, LispVal.truthy (.func pars body nm clos) = true)
    ∧ (∀ b, LispVal.truthy (.builtin b) = true) := by
  refine ⟨rfl, fun x xs => rfl, fun s => ?_, fun _ _ _ _ => rfl, fun _ => rfl⟩
  have h : (["", "false", "no", "off", "0", "null", "undefined", "nan"] : List String) = FALSES := rfl
  rw [h]
  simp only [LispVal.truthy, Bool.not_eq_false', List.contains, List.elem_iff]

/-- C1: the spec claims the caller's scope chain is restored on every exit
path of a closure call, including when the body raises.  The code restores
it only on normal return: the `@contextmanager` generators `scopes_as` and
`new_scope` have no `try/finally`, so when the body raises, the write-back
after `yield` is skipped.  Evaluating `((lambda () x))` (body raises a name
error) from the standard context leaves `scopes` equal to the closure's
captured chain plus the argument frame (`[2, 1, 0]`), not the caller's
chain (`[1, 0]`); a normal return (`((lambda () (quote y)))`) does restore
the caller's chain. -/
theorem c1_scopes_not_restored_on_error :
    (stdCtx 30 60 30).scopes = [1, 0]
    ∧ (step 60 (stdCtx 30 60 30) (.ev c1errProg)).1 = .error (.lisp "nonexistent variable")
    ∧ (step 60 (stdCtx 30 60 30) (.ev c1errProg)).2.scopes = [2, 1, 0]
    ∧ (step 60 (stdCtx 30 60 30) (.ev c1okProg)).1 = .ok (.sym "y")
    ∧ (step 60 (stdCtx 30 60 30) (.ev c1okProg)).2.scopes = [1, 0] :=
  ⟨rfl, rfl, rfl, rfl, rfl⟩

/-- C2: closures capture their defining environment by reference, not by
deep copy.  `lambda` captures the defining chain's frame indices themselves
(`clos = env.scopes.new_child(); clos.maps.pop(0)` shares the dicts), so
after `n` is reassigned via `set` in the defining scope, calling
`f = (lambda () n)` returns the new value — while before the reassignment
it returns the old one. -/
theorem c2_closure_capture_aliasing :
    (step 60 (stdCtx 30 60 30) (.ev c2progBefore)).1 = .ok (.sym "old")
    ∧ (step 60 (stdCtx 30 60 30) (.ev c2progAfter)).1 = .ok (.sym "new")
    ∧ (∀ n c pl body,
        pl.all (fun p => match p with | .sym _ => true | _ => false) = true →
        c.things < c.maxThings →
        step (n+1) c (.appBI .lambda [.list pl, body])
          = (.ok (.func (pl.filterMap (fun p => match p with | .sym s => some s | _ => none))
                body "anonymous function" c.scopes),
             { c with things := c.things + 1 })) := by
  refine ⟨rfl, rfl, fun n c pl body hall hq => ?_⟩
  simp only [step, hall, if_true, EvalContext.new]
  rw [if_neg (by omega)]

/-- Witness for the general conjunct of the C2 theorem. -/
theorem c2_closure_capture_aliasing_witness :
    ([(.sym "p" : LispVal)].all (fun p => match p with | .sym _ => true | _ => false) = true)
    ∧ (stdCtx 5 5 5).things < (stdCtx 5 5 5).maxThings
    ∧ step 1 (stdCtx 5 5 5) (.appBI .lambda [.list [.sym "p"], .sym "q"])
        = (.ok (.func ["p"] (.sym "q") "anonymous function" (stdCtx 5 5 5).scopes),
           { stdCtx 5 5 5 with things := (stdCtx 5 5 5).things + 1 }) :=
  ⟨rfl, by decide,
   c2_closure_capture_aliasing.2.2 0 (stdCtx 5 5 5) [.sym "p"] (.sym "q") rfl (by decide)⟩

/-- C4: calling a closure with the wrong number of arguments fails before
anything else happens: `LispFunc.__call__` checks the arity first and the
context is returned untouched (no argument frame allocated, no parameter
bound, the body not evaluated), with the error naming the closure.  In the
packaged error taxonomy the raised `ArgCountError` carries both the
expected count (`len(f.pars)`) and the actual count. -/
theorem c4_arg_count_error :
    (∀ n c pars body nm clos args, args.length ≠ pars.length →
        step (n+1) c (.app (.func pars body nm clos) args)
          = (.error (.lisp ("wrong number of args given to " ++ nm)), c))
    ∧ (∀ pars nm args, args.length ≠ pars.length →
        parthialCallCheck pars nm args = some ⟨nm, pars.length, args.length⟩) := by
  constructor
  · intro n c pars body nm clos args h
    simp only [step]
    rw [if_neg h]
  · intro pars nm args h
    simp [parthialCallCheck, h]

/-- Witness for the C4 theorem. -/
theorem c4_arg_count_error_witness :
    (([(.sym "z" : LispVal)]).length ≠ ([] : List String).length)
    ∧ step 3 (stdCtx 9 9 9) (.app (.func [] (.sym "b") "anonymous function" [1, 0]) [.sym "z"])
        = (.error (.lisp ("wrong number of args given to " ++ "anonymous function")), stdCtx 9 9 9)
    ∧ parthialCallCheck ["p", "q"] "anonymous function" [.sym "z"]
        = some ⟨"anonymous function", 2, 1⟩ :=
  ⟨by decide,
   c4_arg_count_error.1 2 (stdCtx 9 9 9) [] (.sym "b") "anonymous function" [1, 0] [.sym "z"]
     (by decide),
   c4_arg_count_error.2 ["p", "q"] "anonymous function" [.sym "z"] (by decide)⟩

/-- C5: `(if c a b)` evaluates the condition exactly once, then exactly one
of the two branches — the first when the condition's value is truthy, the
second otherwise; with other than three arguments it fails with the
arg-count error.  The two concrete runs show the untaken branch's `set` is
never executed. -/
theorem c5_if_short_circuit :
    (∀ n c cond i t1,
        step (n+1) c (.appBI .ifB [cond, i, t1])
          = match step n c (.ev cond) with
            | (.ok v, c1) => step n c1 (.ev (if v.truthy then i else t1))
            | (.error e1, c1) => (.error e1, c1))
    ∧ (∀ n c args, args.length ≠ 3 →
        step (n+1) c (.appBI .ifB args)
          = (.error (.lisp "wrong number of args given to if"), c))
    ∧ ((step 40 (stdCtx 20 40 20) (.ev c5progT)).1 = .ok (.sym "one")
        ∧ (step 40 (stdCtx 20 40 20) (.ev c5progT)).2.getVar "a" = some (.sym "one")
        ∧ (step 40 (stdCtx 20 40 20) (.ev c5progT)).2.getVar "b" = none)
    ∧ ((step 40 (stdCtx 20 40 20) (.ev c5progF)).1 = .ok (.sym "two")
        ∧ (step 40 (stdCtx 20 40 20) (.ev c5progF)).2.getVar "a" = none
        ∧ (step 40 (stdCtx 20 40 20) (.ev c5progF)).2.getVar "b" = some (.sym "two")) := by
  constructor
  · intro n c cond i t1
    simp only [step]
    rcases hc : step n c (.ev cond) with ⟨r, c1⟩
    cases r with
    | ok v => cases hv : v.truthy <;> simp [hv]
    | error e1 => simp
  constructor
  · intro n c args h
    rcases args with _ | ⟨a, args⟩
    · rfl
    rcases args with _ | ⟨b, args⟩
    · rfl
    rcases args with _ | ⟨d, args⟩
    · rfl
    rcases args with _ | ⟨e1, args⟩
    · exact absurd rfl h
    · rfl
  refine ⟨⟨?_, ?_, ?_⟩, ⟨?_, ?_, ?_⟩⟩ <;> rfl

/-- Witness for the C5 theorem. -/
theorem c5_if_short_circuit_witness :
    step 1 (stdCtx 9 9 9) (.appBI .ifB [.sym "x"])
      = (.error (.lisp "wrong number of args given to if"), stdCtx 9 9 9)
    ∧ step 1 (stdCtx 9 9 9) (.appBI .ifB [.sym "x", .sym "y", .sym "z"])
        = match step 0 (stdCtx 9 9 9) (.ev (.sym "x")) with
          | (.ok v, c1) => step 0 c1 (.ev (if v.truthy then .sym "y" else .sym "z"))
          | (.error e1, c1) => (.error e1, c1) :=
  ⟨c5_if_short_circuit.2.1 0 (stdCtx 9 9 9) [.sym "x"] (by decide),
   c5_if_short_circuit.1 0 (stdCtx 9 9 9) (.sym "x") (.sym "y") (.sym "z")⟩

/-- C6: `(quote x)` returns `x` structurally unchanged and unevaluated, for
every argument expression `x` (including lists containing unbound symbols)
and every context in which `quote` resolves to the quoting builtin: list
application passes the single argument to it unevaluated and `quote`
returns it as-is.  Only the two `eval` entries for the whole form and for
the head symbol are counted; nothing else in the context changes. -/
theorem c6_quote_returns_argument_unevaluated (n : Nat) (c : EvalContext) (x : LispVal)
    (hq : c.getVar "quote" = some (.builtin .quote))
    (hd : c.depth + 1 < c.maxDepth) (hs : c.steps + 1 < c.maxSteps) :
    step (n + 4) c (.ev (.list [.sym "quote", x])) = (.ok x, { c with steps := c.steps + 2 }) := by
  have h1 : ¬ (c.maxDepth ≤ c.depth) := by omega
  have h2 : ¬ (c.maxSteps ≤ c.steps) := by omega
  have h3 : ¬ (c.maxDepth ≤ c.depth + 1) := by omega
  have h4 : ¬ (c.maxSteps ≤ c.steps + 1) := by omega
  simp only [step]
  simp only [h1, h2, h3, h4, if_false, EvalContext.getVar]
  simp only [EvalContext.getVar] at hq
  rw [hq]
  simp [LispVal.callable, LispVal.quotes, BI.quotes]

/-- Auxiliary: reading back the frame that a store write targeted. -/
theorem getFrame_setStore_self : ∀ (l : List Frame) (i : Nat) (x : Frame), i < l.length →
    getFrame (setStore l i x) i = x := by
  intro l
  induction l with
  | nil => intro i x h; simp at h
  | cons a l ih =>
    intro i x h
    cases i with
    | zero => rfl
    | succ i => exact ih i x (by simpa using h)

/-- Auxiliary: a store write leaves every other frame unchanged. -/
theorem getFrame_setStore_ne : ∀ (l : List Frame) (i j : Nat) (x : Frame), j ≠ i →
    getFrame (setStore l i x) j = getFrame l j := by
  intro l
  induction l with
  | nil => intro i j x h; rfl
  | cons a l ih =>
    intro i j x h
    cases i with
    | zero =>
      cases j with
      | zero => exact absurd rfl h
      | succ j => rfl
    | succ i =>
      cases j with
      | zero => rfl
      | succ j => exact ih i j x (by omega)

/-- Auxiliary: dict assignment binds its key (overwriting or appending). -/
theorem lookupFrame_frameSet_self : ∀ (fr : Frame) (k : String) (v : LispVal),
    lookupFrame (frameSet fr k v) k = some v := by
  intro fr k v
  induction fr with
  | nil => simp [frameSet, lookupFrame]
  | cons kv fr ih =>
    by_cases h : kv.1 = k
    · simp [frameSet, lookupFrame, h]
    · simp [frameSet, lookupFrame, h, ih]

/-- Auxiliary: dict assignment leaves every other key unchanged. -/
theorem lookupFrame_frameSet_ne : ∀ (fr : Frame) (k k1 : String) (v : LispVal), k1 ≠ k →
    lookupFrame (frameSet fr k v) k1 = lookupFrame fr k1 := by
  intro fr k k1 v hne
  have hkk1 : ¬ (k = k1) := fun h => hne h.symm
  induction fr with
  | nil => simp [frameSet, lookupFrame, hkk1]
  | cons kv fr ih =>
    obtain ⟨k2, v2⟩ := kv
    by_cases h : k2 = k
    · simp [frameSet, lookupFrame, h, hkk1]
    · by_cases h2 : k2 = k1
      · simp [frameSet, lookupFrame, h, h2, hne]
      · simp [frameSet, lookupFrame, h, h2, ih]

/-- C7: variable lookup searches the scope chain innermost-first (an inner
binding shadows every outer one, a miss falls through to the rest of the
chain, and in a freshly initialised context the global frame is the last
frame consulted); evaluating a Symbol unbound in every frame fails with
exactly the name error `nonexistent variable` (and a bound one returns its
value — never a host-level failure); assignment mutates only the innermost
frame, creating the binding there when absent, and leaves every other
frame and every other key untouched. -/
theorem c7_lookup_and_assignment :
    (∀ (store : List Frame) (i : Nat) (rest : List Nat) (k : String) (v : LispVal),
        lookupFrame (getFrame store i) k = some v →
        chainLookup store (i :: rest) k = some v)
    ∧ (∀ (store : List Frame) (i : Nat) (rest : List Nat) (k : String),
        lookupFrame (getFrame store i) k = none →
        chainLookup store (i :: rest) k = chainLookup store rest k)
    ∧ (∀ (g : Frame) (d s t : Nat) (k : String),
        (EvalContext.init g d s t).getVar k = lookupFrame g k)
    ∧ (∀ (n : Nat) (c : EvalContext) (s1 : String), c.getVar s1 = none →
        step (n+1) c (.vEv (.sym s1)) = (.error (.lisp "nonexistent variable"), c))
    ∧ (∀ (n : Nat) (c : EvalContext) (s1 : String) (v : LispVal), c.getVar s1 = some v →
        step (n+1) c (.vEv (.sym s1)) = (.ok v, c))
    ∧ (∀ (c : EvalContext) (k : String) (v : LispVal) (i : Nat) (rest : List Nat),
        c.scopes = i :: rest → i < c.store.length →
        (c.setVar k v).scopes = c.scopes
        ∧ getFrame (c.setVar k v).store i = frameSet (getFrame c.store i) k v
        ∧ (∀ j, j ≠ i → getFrame (c.setVar k v).store j = getFrame c.store j))
    ∧ (∀ (fr : Frame) (k : String) (v : LispVal), lookupFrame (frameSet fr k v) k = some v)
    ∧ (∀ (fr : Frame) (k k1 : String) (v : LispVal), k1 ≠ k →
        lookupFrame (frameSet fr k v) k1 = lookupFrame fr k1) := by
  refine ⟨fun store i rest k v h => ?_, fun store i rest k h => ?_, fun g d s t k => ?_,
    fun n c s1 h => ?_, fun n c s1 v h => ?_, fun c k v i rest hsc hlen => ?_,
    lookupFrame_frameSet_self, lookupFrame_frameSet_ne⟩
  · simp [chainLookup, h]
  · simp [chainLookup, h]
  · show chainLookup [g, []] [1, 0] k = lookupFrame g k
    cases h : lookupFrame g k <;> simp [chainLookup, lookupFrame, getFrame, h]
  · simp only [step, EvalContext.getVar] at h ⊢
    rw [h]
  · simp only [step, EvalContext.getVar] at h ⊢
    rw [h]
  · refine ⟨?_, ?_, ?_⟩
    · simp [EvalContext.setVar, hsc]
    · simp only [EvalContext.setVar, hsc]
      exact getFrame_setStore_self c.store i (frameSet (getFrame c.store i) k v) hlen
    · intro j hj
      simp only [EvalContext.setVar, hsc]
      exact getFrame_setStore_ne c.store i j (frameSet (getFrame c.store i) k v) hj

/-- Witness for the C7 theorem. -/
theorem c7_lookup_and_assignment_witness :
    ((stdCtx 9 9 9).getVar "nope" = none
      ∧ step 1 (stdCtx 9 9 9) (.vEv (.sym "nope"))
          = (.error (.lisp "nonexistent variable"), stdCtx 9 9 9))
    ∧ ((stdCtx 9 9 9).scopes = [1, 0] ∧ 1 < (stdCtx 9 9 9).store.length
      ∧ ((stdCtx 9 9 9).setVar "k" (.sym "v")).scopes = (stdCtx 9 9 9).scopes
      ∧ (getFrame ((stdCtx 9 9 9).setVar "k" (.sym "v")).store 1
          = frameSet (getFrame (stdCtx 9 9 9).store 1) "k" (.sym "v"))
      ∧ (∀ j, j ≠ 1 → getFrame ((stdCtx 9 9 9).setVar "k" (.sym "v")).store j
          = getFrame (stdCtx 9 9 9).store j)) :=
  ⟨⟨rfl, c7_lookup_and_assignment.2.2.2.1 0 (stdCtx 9 9 9) "nope" rfl⟩,
   ⟨rfl, by decide,
    (c7_lookup_and_assignment.2.2.2.2.2.1 (stdCtx 9 9 9) "k" (.sym "v") 1 [0] rfl (by decide)).1,
    (c7_lookup_and_assignment.2.2.2.2.2.1 (stdCtx 9 9 9) "k" (.sym "v") 1 [0] rfl (by decide)).2.1,
    (c7_lookup_and_assignment.2.2.2.2.2.1 (stdCtx 9 9 9) "k" (.sym "v") 1 [0] rfl (by decide)).2.2⟩⟩

/-- C9: `(cons (quote a) (quote (b c)))` evaluates to the three-element
list `(a b c)`; in general `cons` with evaluated head `h` and list tail
`t` allocates (and registers) a new List `h :: t` leaving `t` itself
unchanged, and a non-list second argument yields the type error citing the
second argument position. -/
theorem c9_cons :
    (step 40 (stdCtx 20 40 20) (.ev c9prog)).1 = .ok (.list [.sym "a", .sym "b", .sym "c"])
    ∧ (∀ (n : Nat) (c : EvalContext) (h : LispVal) (l : List LispVal), c.things < c.maxThings →
        step (n+1) c (.appBI .cons [h, .list l])
          = (.ok (.list (h :: l)), { c with things := c.things + 1 }))
    ∧ (∀ (n : Nat) (c : EvalContext) (h t1 : LispVal), (∀ l, t1 ≠ .list l) →
        step (n+1) c (.appBI .cons [h, t1])
          = (.error (.lisp "second argument to cons not a list"), c)) := by
  refine ⟨by rfl, fun n c h l hq => ?_, fun n c h t1 hnl => ?_⟩
  · simp only [step, EvalContext.new]
    rw [if_neg (by omega)]
  · cases t1 with
    | sym s => rfl
    | list l => exact absurd rfl (hnl l)
    | func pars body nm clos => rfl
    | builtin b => rfl

/-- Witness for the C9 theorem. -/
theorem c9_cons_witness :
    (stdCtx 9 9 9).things < (stdCtx 9 9 9).maxThings
    ∧ step 1 (stdCtx 9 9 9) (.appBI .cons [.sym "h", .list [.sym "t"]])
        = (.ok (.list [.sym "h", .sym "t"]), { stdCtx 9 9 9 with things := (stdCtx 9 9 9).things + 1 })
    ∧ step 1 (stdCtx 9 9 9) (.appBI .cons [.sym "h", .sym "t"])
        = (.error (.lisp "second argument to cons not a list"), stdCtx 9 9 9) :=
  ⟨by decide,
   c9_cons.2.1 0 (stdCtx 9 9 9) (.sym "h") [.sym "t"] (by decide),
   c9_cons.2.2 0 (stdCtx 9 9 9) (.sym "h") (.sym "t") (fun l h => by cases h)⟩

/-- C10: `new(val)` raises the resource-limit error whenever the tracked
census has already reached `max_things` — the check precedes (and ignores)
membership, so re-registering an already-tracked value still raises — and
otherwise adds the value and returns; `rec_new` registers children
depth-first before the value itself, so a quota failure partway leaves the
already-registered children registered (registration is not atomic): with
`max_things = 2`, registering a node with two fresh children registers both
children and then fails on the node itself. -/
theorem c10_quota_registrar :
    (∀ (st : Things) (v : Nat), st.things.card = st.maxThings → v ∈ st.things →
        st.new v = .error ())
    ∧ (∀ (st : Things) (v : Nat), st.things.card < st.maxThings →
        st.new v = .ok { st with things := insert v st.things })
    ∧ (∀ (st : Things) (i : Nat) (cs : List ObjTree) (st1 : Things),
        recNewList st cs = .ok st1 → st1.new i = .error () →
        recNew st (.node i cs) = .error st1)
    ∧ recNew ⟨∅, 2⟩ (.node 0 [.node 1 [], .node 2 []]) = .error ⟨{1, 2}, 2⟩ := by
  refine ⟨fun st v h1 h2 => ?_, fun st v h1 => ?_, fun st i cs st1 h1 h2 => ?_, ?_⟩
  · simp [Things.new, h1]
  · simp only [Things.new]
    rw [if_neg (by omega)]
  · simp [recNew, h1, h2]
  · simp [recNew, recNewList, Things.new]
    decide

/-- Witness for the C10 theorem. -/
theorem c10_quota_registrar_witness :
    (({5} : Finset Nat).card = 1 ∧ 5 ∈ ({5} : Finset Nat)
      ∧ Things.new ⟨{5}, 1⟩ 5 = .error ())
    ∧ ((∅ : Finset Nat).card < 3
      ∧ Things.new ⟨∅, 3⟩ 7 = .ok ⟨{7}, 3⟩) :=
  ⟨⟨by decide, by decide, c10_quota_registrar.1 ⟨{5}, 1⟩ 5 (by decide) (by decide)⟩,
   ⟨by decide, c10_quota_registrar.2.1 ⟨∅, 3⟩ 7 (by decide)⟩⟩

/-- Witness for the C6 theorem. -/
theorem c6_quote_witness :
    (stdCtx 10 20 5).getVar "quote" = some (.builtin .quote)
    ∧ (stdCtx 10 20 5).depth + 1 < (stdCtx 10 20 5).maxDepth
    ∧ (stdCtx 10 20 5).steps + 1 < (stdCtx 10 20 5).maxSteps
    ∧ step (5 + 4) (stdCtx 10 20 5) (.ev (.list [.sym "quote", .list [.sym "nope", .sym "q"]]))
        = (.ok (.list [.sym "nope", .sym "q"]),
           { stdCtx 10 20 5 with steps := (stdCtx 10 20 5).steps + 2 }) :=
  ⟨rfl, by decide, by decide,
   c6_quote_returns_argument_unevaluated 5 (stdCtx 10 20 5) (.list [.sym "nope", .sym "q"])
     rfl (by decide) (by decide)⟩

/-! ## Termination (C3) -/

/-- Auxiliary: structural sizes are positive. -/
theorem sizeVals_pos : ∀ (l : List LispVal), 0 < sizeVals l := by
  intro l
  cases l <;> simp [sizeVals]

/-- Auxiliary: `setVar` touches only the store, never the counters. -/
theorem setVar_counters (c : EvalContext) (k : String) (v : LispVal) :
    (c.setVar k v).steps = c.steps ∧ (c.setVar k v).maxSteps = c.maxSteps := by
  unfold EvalContext.setVar
  cases c.scopes <;> simp

/-- Fuel adequacy: every context/task pair converges — for enough fuel the
result is fixed and is never the fuel artifact.  This is the termination
guarantee of the source's monotone step counter: each `eval` entry checks
`steps >= max_steps` and increments `steps`, nothing ever decreases it,
and between two `eval` entries the evaluator only descends structurally
(through `apply`) into existing values. -/
theorem stepConverges (c : EvalContext) (t : Task) : Converges c t := by
  match t with
  | .ev e =>
    by_cases hd : c.maxDepth ≤ c.depth
    · refine ⟨1, (.error (.interp "too much nesting"), c), fun m hm => ?_, by simp, le_refl _, rfl⟩
      obtain ⟨m1, rfl⟩ : ∃ m1, m = m1 + 1 := ⟨m - 1, by omega⟩
      simp only [step, if_pos hd]
    · by_cases hs : c.maxSteps ≤ c.steps
      · refine ⟨1, (.error (.interp "too many steps"), c), fun m hm => ?_, by simp, le_refl _, rfl⟩
        obtain ⟨m1, rfl⟩ : ∃ m1, m = m1 + 1 := ⟨m - 1, by omega⟩
        simp only [step, if_neg hd, if_pos hs]
      · obtain ⟨n1, ⟨rv1, c2⟩, hc1, hnf1, hs1, hm1⟩ :=
          stepConverges { c with depth := c.depth + 1, steps := c.steps + 1 } (.vEv e)
        have hs1a : c.steps + 1 ≤ c2.steps := hs1
        have hm1a : c2.maxSteps = c.maxSteps := hm1
        cases rv1 with
        | ok v =>
          refine ⟨n1 + 1, (.ok v, { c2 with depth := c2.depth - 1 }), fun m hm => ?_, by simp,
            (by omega : c.steps ≤ c2.steps), (by omega : c2.maxSteps = c.maxSteps)⟩
          obtain ⟨m1, rfl⟩ : ∃ m1, m = m1 + 1 := ⟨m - 1, by omega⟩
          simp only [step, if_neg hd, if_neg hs]
          simp only [hc1 m1 (by omega)]
        | error err =>
          refine ⟨n1 + 1, (.error err, c2), fun m hm => ?_, hnf1,
            (by omega : c.steps ≤ c2.steps), (by omega : c2.maxSteps = c.maxSteps)⟩
          obtain ⟨m1, rfl⟩ : ∃ m1, m = m1 + 1 := ⟨m - 1, by omega⟩
          simp only [step, if_neg hd, if_neg hs]
          simp only [hc1 m1 (by omega)]
  | .vEv e =>
    cases e with
    | sym s =>
      cases hg : c.getVar s with
      | some v =>
        refine ⟨1, (.ok v, c), fun m hm => ?_, by simp, le_refl _, rfl⟩
        obtain ⟨m1, rfl⟩ : ∃ m1, m = m1 + 1 := ⟨m - 1, by omega⟩
        simp only [step, hg]
      | none =>
        refine ⟨1, (.error (.lisp "nonexistent variable"), c), fun m hm => ?_, by simp, le_refl _, rfl⟩
        obtain ⟨m1, rfl⟩ : ∃ m1, m = m1 + 1 := ⟨m - 1, by omega⟩
        simp only [step, hg]
    | func pars body nm clos =>
      refine ⟨1, (.error (.host "TypeError"), c), fun m hm => ?_, by simp, le_refl _, rfl⟩
      obtain ⟨m1, rfl⟩ : ∃ m1, m = m1 + 1 := ⟨m - 1, by omega⟩
      rfl
    | builtin b =>
      refine ⟨1, (.error (.host "TypeError"), c), fun m hm => ?_, by simp, le_refl _, rfl⟩
      obtain ⟨m1, rfl⟩ : ∃ m1, m = m1 + 1 := ⟨m - 1, by omega⟩
      rfl
    | list xs =>
      cases xs with
      | nil =>
        refine ⟨1, (.ok (.list []), c), fun m hm => ?_, by simp, le_refl _, rfl⟩
        obtain ⟨m1, rfl⟩ : ∃ m1, m = m1 + 1 := ⟨m - 1, by omega⟩
        rfl
      | cons h t1 =>
        obtain ⟨n1, ⟨rv1, c1⟩, hc1, hnf1, hs1, hm1⟩ := stepConverges c (.ev h)
        replace hs1 : c.steps ≤ c1.steps := hs1
        replace hm1 : c1.maxSteps = c.maxSteps := hm1
        cases rv1 with
        | error err =>
          refine ⟨n1 + 1, (.error err, c1), fun m hm => ?_, hnf1, hs1, hm1⟩
          obtain ⟨m1, rfl⟩ : ∃ m1, m = m1 + 1 := ⟨m - 1, by omega⟩
          simp only [step]
          simp only [hc1 m1 (by omega)]
        | ok f =>
          cases hcall : f.callable with
          | false =>
            refine ⟨n1 + 1, (.error (.lisp "non-callable value in application"), c1),
              fun m hm => ?_, by simp, hs1, hm1⟩
            obtain ⟨m1, rfl⟩ : ∃ m1, m = m1 + 1 := ⟨m - 1, by omega⟩
            simp only [step]
            simp only [hc1 m1 (by omega), hcall]
            simp
          | true =>
            cases hq : f.quotes with
            | true =>
              obtain ⟨n2, r2, hc2, hnf2, hs2, hm2⟩ := stepConverges c1 (.app f t1)
              refine ⟨max (n1 + 1) (n2 + 1), r2, fun m hm => ?_, hnf2,
                (by omega : c.steps ≤ r2.2.steps), (by omega : r2.2.maxSteps = c.maxSteps)⟩
              obtain ⟨m1, rfl⟩ : ∃ m1, m = m1 + 1 := ⟨m - 1, by omega⟩
              simp only [step]
              simp only [hc1 m1 (by omega), hcall, hq, if_true]
              exact hc2 m1 (by omega)
            | false =>
              obtain ⟨n2, ⟨rv2, c2⟩, hc2, hnf2, hs2, hm2⟩ := stepConverges c1 (.evArgs t1)
              replace hs2 : c1.steps ≤ c2.steps := hs2
              replace hm2 : c2.maxSteps = c1.maxSteps := hm2
              cases rv2 with
              | error err =>
                refine ⟨max (n1 + 1) (n2 + 1), (.error err, c2), fun m hm => ?_,
                  hnf2,
                  (by omega : c.steps ≤ c2.steps), (by omega : c2.maxSteps = c.maxSteps)⟩
                obtain ⟨m1, rfl⟩ : ∃ m1, m = m1 + 1 := ⟨m - 1, by omega⟩
                simp only [step]
                simp only [hc1 m1 (by omega), hcall, hq, if_true, Bool.false_eq_true, if_false]
                simp only [hc2 m1 (by omega)]
              | ok vs =>
                obtain ⟨n3, r3, hc3, hnf3, hs3, hm3⟩ := stepConverges c2 (.app f vs.elems)
                refine ⟨max (n1 + 1) (max (n2 + 1) (n3 + 1)), r3, fun m hm => ?_, hnf3,
                  (by omega : c.steps ≤ r3.2.steps), (by omega : r3.2.maxSteps = c.maxSteps)⟩
                obtain ⟨m1, rfl⟩ : ∃ m1, m = m1 + 1 := ⟨m - 1, by omega⟩
                simp only [step]
                simp only [hc1 m1 (by omega), hcall, hq, if_true, Bool.false_eq_true, if_false]
                simp only [hc2 m1 (by omega)]
                exact hc3 m1 (by omega)
  | .evArgs xs =>
    cases xs with
    | nil =>
      refine ⟨1, (.ok (.list []), c), fun m hm => ?_, by simp, le_refl _, rfl⟩
      obtain ⟨m1, rfl⟩ : ∃ m1, m = m1 + 1 := ⟨m - 1, by omega⟩
      rfl
    | cons x rest =>
      have hxz : sizeVals rest < sizeVals (x :: rest) := by simp only [sizeVals]; omega
      have hxz2 : 0 < sizeVals (x :: rest) := sizeVals_pos _
      obtain ⟨n1, ⟨rv1, c1⟩, hc1, hnf1, hs1, hm1⟩ := stepConverges c (.ev x)
      replace hs1 : c.steps ≤ c1.steps := hs1
      replace hm1 : c1.maxSteps = c.maxSteps := hm1
      cases rv1 with
      | error err =>
        refine ⟨n1 + 1, (.error err, c1), fun m hm => ?_, hnf1, hs1, hm1⟩
        obtain ⟨m1, rfl⟩ : ∃ m1, m = m1 + 1 := ⟨m - 1, by omega⟩
        simp only [step]
        simp only [hc1 m1 (by omega)]
      | ok v =>
        obtain ⟨n2, ⟨rv2, c2⟩, hc2, hnf2, hs2, hm2⟩ := stepConverges c1 (.evArgs rest)
        replace hs2 : c1.steps ≤ c2.steps := hs2
        replace hm2 : c2.maxSteps = c1.maxSteps := hm2
        cases rv2 with
        | error err =>
          refine ⟨max (n1 + 1) (n2 + 1), (.error err, c2), fun m hm => ?_, hnf2,
            (by omega : c.steps ≤ c2.steps), (by omega : c2.maxSteps = c.maxSteps)⟩
          obtain ⟨m1, rfl⟩ : ∃ m1, m = m1 + 1 := ⟨m - 1, by omega⟩
          simp only [step]
          simp only [hc1 m1 (by omega)]
          simp only [hc2 m1 (by omega)]
        | ok vs =>
          refine ⟨max (n1 + 1) (n2 + 1), (.ok (.list (v :: vs.elems)), c2), fun m hm => ?_,
            by simp, (by omega : c.steps ≤ c2.steps), (by omega : c2.maxSteps = c.maxSteps)⟩
          obtain ⟨m1, rfl⟩ : ∃ m1, m = m1 + 1 := ⟨m - 1, by omega⟩
          simp only [step]
          simp only [hc1 m1 (by omega)]
          simp only [hc2 m1 (by omega)]
  | .app f args =>
    have hav : 0 < sizeVals args := sizeVals_pos _
    cases f with
    | sym s =>
      refine ⟨1, (.error (.host "TypeError"), c), fun m hm => ?_, by simp, le_refl _, rfl⟩
      obtain ⟨m1, rfl⟩ : ∃ m1, m = m1 + 1 := ⟨m - 1, by omega⟩
      rfl
    | list l =>
      refine ⟨1, (.error (.host "TypeError"), c), fun m hm => ?_, by simp, le_refl _, rfl⟩
      obtain ⟨m1, rfl⟩ : ∃ m1, m = m1 + 1 := ⟨m - 1, by omega⟩
      rfl
    | builtin b =>
      obtain ⟨n1, r1, hc1, hnf1, hs1, hm1⟩ := stepConverges c (.appBI b args)
      refine ⟨n1 + 1, r1, fun m hm => ?_, hnf1, hs1, hm1⟩
      obtain ⟨m1, rfl⟩ : ∃ m1, m = m1 + 1 := ⟨m - 1, by omega⟩
      exact hc1 m1 (by omega)
    | func pars body nm clos =>
      by_cases hlen : args.length = pars.length
      · obtain ⟨n1, ⟨rv1, c3⟩, hc1, hnf1, hs1, hm1⟩ :=
          stepConverges { c with store := c.store ++ [bindPars pars args],
                                 scopes := c.store.length :: clos } (.ev body)
        have hs1a : c.steps ≤ c3.steps := hs1
        have hm1a : c3.maxSteps = c.maxSteps := hm1
        cases rv1 with
        | ok v =>
          refine ⟨n1 + 1, (.ok v, { c3 with scopes := c.scopes }), fun m hm => ?_, by simp,
            (by omega : c.steps ≤ c3.steps), (by omega : c3.maxSteps = c.maxSteps)⟩
          obtain ⟨m1, rfl⟩ : ∃ m1, m = m1 + 1 := ⟨m - 1, by omega⟩
          simp only [step, if_pos hlen]
          simp only [hc1 m1 (by omega)]
        | error err =>
          refine ⟨n1 + 1, (.error err, c3), fun m hm => ?_, hnf1,
            (by omega : c.steps ≤ c3.steps), (by omega : c3.maxSteps = c.maxSteps)⟩
          obtain ⟨m1, rfl⟩ : ∃ m1, m = m1 + 1 := ⟨m - 1, by omega⟩
          simp only [step, if_pos hlen]
          simp only [hc1 m1 (by omega)]
      · refine ⟨1, (.error (.lisp ("wrong number of args given to " ++ nm)), c),
          fun m hm => ?_, by simp, le_refl _, rfl⟩
        obtain ⟨m1, rfl⟩ : ∃ m1, m = m1 + 1 := ⟨m - 1, by omega⟩
        simp only [step, if_neg hlen]
  | .appBI b args =>
    have hav : 0 < sizeVals args := sizeVals_pos _
    cases b with
    | evalB =>
      match args with
      | [] =>
        refine ⟨1, (.error (.lisp "wrong number of args given to eval"), c),
          fun m hm => ?_, by simp, le_refl _, rfl⟩
        obtain ⟨m1, rfl⟩ : ∃ m1, m = m1 + 1 := ⟨m - 1, by omega⟩
        rfl
      | [a] =>
        obtain ⟨n1, r1, hc1, hnf1, hs1, hm1⟩ := stepConverges c (.ev a)
        refine ⟨n1 + 1, r1, fun m hm => ?_, hnf1, hs1, hm1⟩
        obtain ⟨m1, rfl⟩ : ∃ m1, m = m1 + 1 := ⟨m - 1, by omega⟩
        exact hc1 m1 (by omega)
      | a :: a2 :: rest =>
        refine ⟨1, (.error (.lisp "wrong number of args given to eval"), c),
          fun m hm => ?_, by simp, le_refl _, rfl⟩
        obtain ⟨m1, rfl⟩ : ∃ m1, m = m1 + 1 := ⟨m - 1, by omega⟩
        rfl
    | applyB =>
      match args with
      | [] =>
        refine ⟨1, (.error (.lisp "wrong number of args given to apply"), c),
          fun m hm => ?_, by simp, le_refl _, rfl⟩
        obtain ⟨m1, rfl⟩ : ∃ m1, m = m1 + 1 := ⟨m - 1, by omega⟩
        rfl
      | [f] =>
        refine ⟨1, (.error (.lisp "wrong number of args given to apply"), c),
          fun m hm => ?_, by simp, le_refl _, rfl⟩
        obtain ⟨m1, rfl⟩ : ∃ m1, m = m1 + 1 := ⟨m - 1, by omega⟩
        rfl
      | [f, xs] =>
        cases hcall : f.callable with
        | false =>
          refine ⟨1, (.error (.lisp "non-callable value in application"), c),
            fun m hm => ?_, by simp, le_refl _, rfl⟩
          obtain ⟨m1, rfl⟩ : ∃ m1, m = m1 + 1 := ⟨m - 1, by omega⟩
          simp only [step, hcall, Bool.false_eq_true, if_false]
        | true =>
          match xs with
          | .list l =>
            have hsz : sizeVals l < sizeVals [f, .list l] := by
              simp only [sizeVals, LispVal.size]; omega
            obtain ⟨n1, r1, hc1, hnf1, hs1, hm1⟩ := stepConverges c (.app f l)
            refine ⟨n1 + 1, r1, fun m hm => ?_, hnf1, hs1, hm1⟩
            obtain ⟨m1, rfl⟩ : ∃ m1, m = m1 + 1 := ⟨m - 1, by omega⟩
            simp only [step, hcall, if_true]
            exact hc1 m1 (by omega)
          | .sym s =>
            refine ⟨1, (.error (.lisp "second argument to apply not a list"), c),
              fun m hm => ?_, by simp, le_refl _, rfl⟩
            obtain ⟨m1, rfl⟩ : ∃ m1, m = m1 + 1 := ⟨m - 1, by omega⟩
            simp only [step, hcall, if_true]
          | .func p2 b2 n2 cl2 =>
            refine ⟨1, (.error (.lisp "second argument to apply not a list"), c),
              fun m hm => ?_, by simp, le_refl _, rfl⟩
            obtain ⟨m1, rfl⟩ : ∃ m1, m = m1 + 1 := ⟨m - 1, by omega⟩
            simp only [step, hcall, if_true]
          | .builtin b2 =>
            refine ⟨1, (.error (.lisp "second argument to apply not a list"), c),
              fun m hm => ?_, by simp, le_refl _, rfl⟩
            obtain ⟨m1, rfl⟩ : ∃ m1, m = m1 + 1 := ⟨m - 1, by omega⟩
            simp only [step, hcall, if_true]
      | f :: xs :: a3 :: rest =>
        refine ⟨1, (.error (.lisp "wrong number of args given to apply"), c),
          fun m hm => ?_, by simp, le_refl _, rfl⟩
        obtain ⟨m1, rfl⟩ : ∃ m1, m = m1 + 1 := ⟨m - 1, by omega⟩
        rfl
    | progn =>
      cases hl : args.getLast? with
      | some v =>
        refine ⟨1, (.ok v, c), fun m hm => ?_, by simp, le_refl _, rfl⟩
        obtain ⟨m1, rfl⟩ : ∃ m1, m = m1 + 1 := ⟨m - 1, by omega⟩
        simp only [step, hl]
      | none =>
        refine ⟨1, (.error (.lisp "no args given to progn"), c), fun m hm => ?_,
          by simp, le_refl _, rfl⟩
        obtain ⟨m1, rfl⟩ : ∃ m1, m = m1 + 1 := ⟨m - 1, by omega⟩
        simp only [step, hl]
    | quote =>
      match args with
      | [x] =>
        refine ⟨1, (.ok x, c), fun m hm => ?_, by simp, le_refl _, rfl⟩
        obtain ⟨m1, rfl⟩ : ∃ m1, m = m1 + 1 := ⟨m - 1, by omega⟩
        rfl
      | [] =>
        refine ⟨1, (.error (.lisp "wrong number of args given to quote"), c),
          fun m hm => ?_, by simp, le_refl _, rfl⟩
        obtain ⟨m1, rfl⟩ : ∃ m1, m = m1 + 1 := ⟨m - 1, by omega⟩
        rfl
      | x :: x2 :: rest =>
        refine ⟨1, (.error (.lisp "wrong number of args given to quote"), c),
          fun m hm => ?_, by simp, le_refl _, rfl⟩
        obtain ⟨m1, rfl⟩ : ∃ m1, m = m1 + 1 := ⟨m - 1, by omega⟩
        rfl
    | lambda =>
      match args with
      | [] =>
        refine ⟨1, (.error (.lisp "wrong number of args given to lambda"), c),
          fun m hm => ?_, by simp, le_refl _, rfl⟩
        obtain ⟨m1, rfl⟩ : ∃ m1, m = m1 + 1 := ⟨m - 1, by omega⟩
        rfl
      | [a] =>
        refine ⟨1, (.error (.lisp "wrong number of args given to lambda"), c),
          fun m hm => ?_, by simp, le_refl _, rfl⟩
        obtain ⟨m1, rfl⟩ : ∃ m1, m = m1 + 1 := ⟨m - 1, by omega⟩
        rfl
      | [ps, body] =>
        match ps with
        | .list pl =>
          cases hall : pl.all (fun p => match p with | .sym _ => true | _ => false) with
          | false =>
            refine ⟨1, (.error (.lisp "first argument to lambda not a list of symbols"), c),
              fun m hm => ?_, by simp, le_refl _, rfl⟩
            obtain ⟨m1, rfl⟩ : ∃ m1, m = m1 + 1 := ⟨m - 1, by omega⟩
            simp only [step, hall, Bool.false_eq_true, if_false]
          | true =>
            by_cases hth : c.maxThings ≤ c.things
            · refine ⟨1, (.error (.interp "too many things"), c), fun m hm => ?_,
                by simp, le_refl _, rfl⟩
              obtain ⟨m1, rfl⟩ : ∃ m1, m = m1 + 1 := ⟨m - 1, by omega⟩
              simp only [step, hall, if_true, EvalContext.new, if_pos hth]
            · refine ⟨1, (.ok (.func (pl.filterMap (fun p => match p with | .sym s => some s | _ => none))
                  body "anonymous function" c.scopes), { c with things := c.things + 1 }),
                fun m hm => ?_, by simp, le_refl _, rfl⟩
              obtain ⟨m1, rfl⟩ : ∃ m1, m = m1 + 1 := ⟨m - 1, by omega⟩
              simp only [step, hall, if_true, EvalContext.new, if_neg hth]
        | .sym s =>
          refine ⟨1, (.error (.lisp "first argument to lambda not a list"), c),
            fun m hm => ?_, by simp, le_refl _, rfl⟩
          obtain ⟨m1, rfl⟩ : ∃ m1, m = m1 + 1 := ⟨m - 1, by omega⟩
          rfl
        | .func p2 b2 n2 cl2 =>
          refine ⟨1, (.error (.lisp "first argument to lambda not a list"), c),
            fun m hm => ?_, by simp, le_refl _, rfl⟩
          obtain ⟨m1, rfl⟩ : ∃ m1, m = m1 + 1 := ⟨m - 1, by omega⟩
          rfl
        | .builtin b2 =>
          refine ⟨1, (.error (.lisp "first argument to lambda not a list"), c),
            fun m hm => ?_, by simp, le_refl _, rfl⟩
          obtain ⟨m1, rfl⟩ : ∃ m1, m = m1 + 1 := ⟨m - 1, by omega⟩
          rfl
      | a :: a2 :: a3 :: rest =>
        refine ⟨1, (.error (.lisp "wrong number of args given to lambda"), c),
          fun m hm => ?_, by simp, le_refl _, rfl⟩
        obtain ⟨m1, rfl⟩ : ∃ m1, m = m1 + 1 := ⟨m - 1, by omega⟩
        rfl
    | setB =>
      match args with
      | [] =>
        refine ⟨1, (.error (.lisp "wrong number of args given to set"), c),
          fun m hm => ?_, by simp, le_refl _, rfl⟩
        obtain ⟨m1, rfl⟩ : ∃ m1, m = m1 + 1 := ⟨m - 1, by omega⟩
        rfl
      | [a] =>
        refine ⟨1, (.error (.lisp "wrong number of args given to set"), c),
          fun m hm => ?_, by simp, le_refl _, rfl⟩
        obtain ⟨m1, rfl⟩ : ∃ m1, m = m1 + 1 := ⟨m - 1, by omega⟩
        rfl
      | [nm, vexpr] =>
        match nm with
        | .sym s =>
          obtain ⟨n1, ⟨rv1, c1⟩, hc1, hnf1, hs1, hm1⟩ := stepConverges c (.ev vexpr)
          replace hs1 : c.steps ≤ c1.steps := hs1
          replace hm1 : c1.maxSteps = c.maxSteps := hm1
          cases rv1 with
          | ok v =>
            obtain ⟨hsv, hmv⟩ := setVar_counters c1 s v
            refine ⟨n1 + 1, (.ok v, c1.setVar s v), fun m hm => ?_, by simp,
              (by omega : c.steps ≤ (c1.setVar s v).steps),
              (by omega : (c1.setVar s v).maxSteps = c.maxSteps)⟩
            obtain ⟨m1, rfl⟩ : ∃ m1, m = m1 + 1 := ⟨m - 1, by omega⟩
            simp only [step]
            rw [hc1 m1 (by omega)]
          | error err =>
            refine ⟨n1 + 1, (.error err, c1), fun m hm => ?_, hnf1, hs1, hm1⟩
            obtain ⟨m1, rfl⟩ : ∃ m1, m = m1 + 1 := ⟨m - 1, by omega⟩
            simp only [step]
            rw [hc1 m1 (by omega)]
        | .list l2 =>
          refine ⟨1, (.error (.lisp "first argument to set not a symbol"), c),
            fun m hm => ?_, by simp, le_refl _, rfl⟩
          obtain ⟨m1, rfl⟩ : ∃ m1, m = m1 + 1 := ⟨m - 1, by omega⟩
          rfl
        | .func p2 b2 n2 cl2 =>
          refine ⟨1, (.error (.lisp "first argument to set not a symbol"), c),
            fun m hm => ?_, by simp, le_refl _, rfl⟩
          obtain ⟨m1, rfl⟩ : ∃ m1, m = m1 + 1 := ⟨m - 1, by omega⟩
          rfl
        | .builtin b2 =>
          refine ⟨1, (.error (.lisp "first argument to set not a symbol"), c),
            fun m hm => ?_, by simp, le_refl _, rfl⟩
          obtain ⟨m1, rfl⟩ : ∃ m1, m = m1 + 1 := ⟨m - 1, by omega⟩
          rfl
      | a :: a2 :: a3 :: rest =>
        refine ⟨1, (.error (.lisp "wrong number of args given to set"), c),
          fun m hm => ?_, by simp, le_refl _, rfl⟩
        obtain ⟨m1, rfl⟩ : ∃ m1, m = m1 + 1 := ⟨m - 1, by omega⟩
        rfl
    | ifB =>
      match args with
      | [] =>
        refine ⟨1, (.error (.lisp "wrong number of args given to if"), c),
          fun m hm => ?_, by simp, le_refl _, rfl⟩
        obtain ⟨m1, rfl⟩ : ∃ m1, m = m1 + 1 := ⟨m - 1, by omega⟩
        rfl
      | [a] =>
        refine ⟨1, (.error (.lisp "wrong number of args given to if"), c),
          fun m hm => ?_, by simp, le_refl _, rfl⟩
        obtain ⟨m1, rfl⟩ : ∃ m1, m = m1 + 1 := ⟨m - 1, by omega⟩
        rfl
      | [a, a2] =>
        refine ⟨1, (.error (.lisp "wrong number of args given to if"), c),
          fun m hm => ?_, by simp, le_refl _, rfl⟩
        obtain ⟨m1, rfl⟩ : ∃ m1, m = m1 + 1 := ⟨m - 1, by omega⟩
        rfl
      | [cond, i, t1] =>
        obtain ⟨n1, ⟨rv1, c1⟩, hc1, hnf1, hs1, hm1⟩ := stepConverges c (.ev cond)
        replace hs1 : c.steps ≤ c1.steps := hs1
        replace hm1 : c1.maxSteps = c.maxSteps := hm1
        cases rv1 with
        | error err =>
          refine ⟨n1 + 1, (.error err, c1), fun m hm => ?_, hnf1, hs1, hm1⟩
          obtain ⟨m1, rfl⟩ : ∃ m1, m = m1 + 1 := ⟨m - 1, by omega⟩
          simp only [step]
          simp only [hc1 m1 (by omega)]
        | ok v =>
          cases hv : v.truthy with
          | true =>
            obtain ⟨n2, r2, hc2, hnf2, hs2, hm2⟩ := stepConverges c1 (.ev i)
            refine ⟨max (n1 + 1) (n2 + 1), r2, fun m hm => ?_, hnf2,
              (by omega : c.steps ≤ r2.2.steps), (by omega : r2.2.maxSteps = c.maxSteps)⟩
            obtain ⟨m1, rfl⟩ : ∃ m1, m = m1 + 1 := ⟨m - 1, by omega⟩
            simp only [step]
            simp only [hc1 m1 (by omega), hv, if_true]
            exact hc2 m1 (by omega)
          | false =>
            obtain ⟨n2, r2, hc2, hnf2, hs2, hm2⟩ := stepConverges c1 (.ev t1)
            refine ⟨max (n1 + 1) (n2 + 1), r2, fun m hm => ?_, hnf2,
              (by omega : c.steps ≤ r2.2.steps), (by omega : r2.2.maxSteps = c.maxSteps)⟩
            obtain ⟨m1, rfl⟩ : ∃ m1, m = m1 + 1 := ⟨m - 1, by omega⟩
            simp only [step]
            simp only [hc1 m1 (by omega), hv, Bool.false_eq_true, if_false]
            exact hc2 m1 (by omega)
      | a :: a2 :: a3 :: a4 :: rest =>
        refine ⟨1, (.error (.lisp "wrong number of args given to if"), c),
          fun m hm => ?_, by simp, le_refl _, rfl⟩
        obtain ⟨m1, rfl⟩ : ∃ m1, m = m1 + 1 := ⟨m - 1, by omega⟩
        rfl
    | cons =>
      match args with
      | [] =>
        refine ⟨1, (.error (.lisp "wrong number of args given to cons"), c),
          fun m hm => ?_, by simp, le_refl _, rfl⟩
        obtain ⟨m1, rfl⟩ : ∃ m1, m = m1 + 1 := ⟨m - 1, by omega⟩
        rfl
      | [a] =>
        refine ⟨1, (.error (.lisp "wrong number of args given to cons"), c),
          fun m hm => ?_, by simp, le_refl _, rfl⟩
        obtain ⟨m1, rfl⟩ : ∃ m1, m = m1 + 1 := ⟨m - 1, by omega⟩
        rfl
      | [h, t1] =>
        match t1 with
        | .list l =>
          by_cases hth : c.maxThings ≤ c.things
          · refine ⟨1, (.error (.interp "too many things"), c), fun m hm => ?_,
              by simp, le_refl _, rfl⟩
            obtain ⟨m1, rfl⟩ : ∃ m1, m = m1 + 1 := ⟨m - 1, by omega⟩
            simp only [step, EvalContext.new, if_pos hth]
          · refine ⟨1, (.ok (.list (h :: l)), { c with things := c.things + 1 }),
              fun m hm => ?_, by simp, le_refl _, rfl⟩
            obtain ⟨m1, rfl⟩ : ∃ m1, m = m1 + 1 := ⟨m - 1, by omega⟩
            simp only [step, EvalContext.new, if_neg hth]
        | .sym s =>
          refine ⟨1, (.error (.lisp "second argument to cons not a list"), c),
            fun m hm => ?_, by simp, le_refl _, rfl⟩
          obtain ⟨m1, rfl⟩ : ∃ m1, m = m1 + 1 := ⟨m - 1, by omega⟩
          rfl
        | .func p2 b2 n2 cl2 =>
          refine ⟨1, (.error (.lisp "second argument to cons not a list"), c),
            fun m hm => ?_, by simp, le_refl _, rfl⟩
          obtain ⟨m1, rfl⟩ : ∃ m1, m = m1 + 1 := ⟨m - 1, by omega⟩
          rfl
        | .builtin b2 =>
          refine ⟨1, (.error (.lisp "second argument to cons not a list"), c),
            fun m hm => ?_, by simp, le_refl _, rfl⟩
          obtain ⟨m1, rfl⟩ : ∃ m1, m = m1 + 1 := ⟨m - 1, by omega⟩
          rfl
      | a :: a2 :: a3 :: rest =>
        refine ⟨1, (.error (.lisp "wrong number of args given to cons"), c),
          fun m hm => ?_, by simp, le_refl _, rfl⟩
        obtain ⟨m1, rfl⟩ : ∃ m1, m = m1 + 1 := ⟨m - 1, by omega⟩
        rfl
termination_by (c.maxSteps - c.steps, Task.phase t, Task.weight t, Task.tag t)
decreasing_by
  all_goals simp only [Prod.lex_def, Task.phase, Task.weight, Task.tag]
  all_goals (first | omega | (simp <;> omega))

/-- Auxiliary: a frame appended to the heap is read back at the old length. -/
theorem getFrame_append_self : ∀ (l : List Frame) (x : Frame), getFrame (l ++ [x]) l.length = x := by
  intro l x
  induction l with
  | nil => rfl
  | cons f rest ih => exact ih

/-- Auxiliary: evaluating a bound symbol either hits a limit or returns
the bound value with only the step counter advanced. -/
theorem evalSym_char (n : Nat) (c : EvalContext) (s : String) (v : LispVal)
    (hv : chainLookup c.store c.scopes s = some v) :
    (step n c (.ev (.sym s))).1 = .error .fuelOut ∨
    (∃ msg, (step n c (.ev (.sym s))).1 = .error (.interp msg)) ∨
    step n c (.ev (.sym s)) = (.ok v, { c with steps := c.steps + 1 }) := by
  match n with
  | 0 => exact Or.inl rfl
  | Nat.succ m =>
    by_cases hd : c.maxDepth ≤ c.depth
    · exact Or.inr (Or.inl ⟨"too much nesting", by simp only [step, if_pos hd]⟩)
    by_cases hs : c.maxSteps ≤ c.steps
    · exact Or.inr (Or.inl ⟨"too many steps", by simp only [step, if_neg hd, if_pos hs]⟩)
    match m with
    | 0 => exact Or.inl (by simp only [step, if_neg hd, if_neg hs])
    | Nat.succ k =>
      refine Or.inr (Or.inr ?_)
      simp only [step, if_neg hd, if_neg hs, EvalContext.getVar, hv, Nat.add_sub_cancel]

/-- Auxiliary: an empty argument list evaluates to the empty list without
touching the context (or runs out of fuel). -/
theorem evArgsNil_char (n : Nat) (c : EvalContext) :
    (step n c (.evArgs [])).1 = .error .fuelOut ∨
    step n c (.evArgs []) = (.ok (.list []), c) := by
  match n with
  | 0 => exact Or.inl rfl
  | Nat.succ m => exact Or.inr rfl

/-- Auxiliary: evaluating the one-symbol argument list `(f)` with `f` bound
either hits a limit or yields the singleton list of the bound value. -/
theorem evArgsF_char (n : Nat) (c : EvalContext) (v : LispVal)
    (hv : chainLookup c.store c.scopes "f" = some v) :
    (step n c (.evArgs [.sym "f"])).1 = .error .fuelOut ∨
    (∃ msg, (step n c (.evArgs [.sym "f"])).1 = .error (.interp msg)) ∨
    step n c (.evArgs [.sym "f"]) = (.ok (.list [v]), { c with steps := c.steps + 1 }) := by
  match n with
  | 0 => exact Or.inl rfl
  | Nat.succ m =>
    rcases evalSym_char m c "f" v hv with h1 | ⟨msg, h2⟩ | h3
    · rcases hp : step m c (.ev (.sym "f")) with ⟨rv, c1⟩
      rw [hp] at h1
      replace h1 : rv = .error .fuelOut := h1
      subst h1
      exact Or.inl (by simp only [step, hp])
    · rcases hp : step m c (.ev (.sym "f")) with ⟨rv, c1⟩
      rw [hp] at h2
      replace h2 : rv = .error (.interp msg) := h2
      subst h2
      exact Or.inr (Or.inl ⟨msg, by simp only [step, hp]⟩)
    · rcases evArgsNil_char m { c with steps := c.steps + 1 } with g1 | g2
      · rcases hp2 : step m { c with steps := c.steps + 1 } (.evArgs []) with ⟨rv2, c2⟩
        rw [hp2] at g1
        replace g1 : rv2 = .error .fuelOut := g1
        subst g1
        exact Or.inl (by simp only [step, h3, hp2])
      · exact Or.inr (Or.inr (by simp only [step, h3, g2, LispVal.elems]))

/-- Auxiliary: dispatching `(f f)` with `f` bound to a unary closure whose
body is `(f f)` can only end in a resource-limit outcome. -/
theorem ffBody_vEv_limit : ∀ (n : Nat) (c : EvalContext), SelfAppInv c →
    limitRes (step n c (.vEv ffBody)).1 := by
  intro n
  induction n using Nat.strong_induction_on with
  | _ n ih =>
    intro c hInv
    obtain ⟨nm, clos, hf⟩ := hInv
    have hfu : chainLookup c.store c.scopes "f" = some (.func ["f"] ffBody nm clos) := hf
    match n with
    | 0 => exact Or.inl rfl
    | Nat.succ n1 =>
      rcases evalSym_char n1 c "f" _ hfu with h1 | ⟨msg, h2⟩ | h3
      · rcases hp : step n1 c (.ev (.sym "f")) with ⟨rv, c1⟩
        rw [hp] at h1
        replace h1 : rv = .error .fuelOut := h1
        subst h1
        exact Or.inl (by simp only [ffBody, step, hp])
      · rcases hp : step n1 c (.ev (.sym "f")) with ⟨rv, c1⟩
        rw [hp] at h2
        replace h2 : rv = .error (.interp msg) := h2
        subst h2
        exact Or.inr ⟨msg, by simp only [ffBody, step, hp]⟩
      · rcases evArgsF_char n1 { c with steps := c.steps + 1 } _ hfu with g1 | ⟨msg, g2⟩ | g3
        · rcases hp2 : step n1 { c with steps := c.steps + 1 } (.evArgs [.sym "f"]) with ⟨rv2, c2⟩
          rw [hp2] at g1
          replace g1 : rv2 = .error .fuelOut := g1
          subst g1
          exact Or.inl (by
            simp only [ffBody, step, h3, LispVal.callable, LispVal.quotes,
              Bool.false_eq_true, if_true, if_false, hp2])
        · rcases hp2 : step n1 { c with steps := c.steps + 1 } (.evArgs [.sym "f"]) with ⟨rv2, c2⟩
          rw [hp2] at g2
          replace g2 : rv2 = .error (.interp msg) := g2
          subst g2
          exact Or.inr ⟨msg, by
            simp only [ffBody, step, h3, LispVal.callable, LispVal.quotes,
              Bool.false_eq_true, if_true, if_false, hp2]⟩
        · have key : step (Nat.succ n1) c (.vEv ffBody)
              = step n1 { c with steps := c.steps + 1 + 1 }
                  (.app (.func ["f"] ffBody nm clos) [.func ["f"] ffBody nm clos]) := by
            simp only [ffBody, step, h3, LispVal.callable, LispVal.quotes,
              Bool.false_eq_true, if_true, if_false, g3, LispVal.elems]
          rw [key]
          match n1 with
          | 0 => exact Or.inl rfl
          | 1 => exact Or.inl rfl
          | Nat.succ (Nat.succ n4) =>
            by_cases hd4 : c.maxDepth ≤ c.depth
            · exact Or.inr ⟨"too much nesting", by
                simp only [step, List.length_cons, List.length_nil, if_true, if_pos hd4]⟩
            by_cases hs4 : c.maxSteps ≤ c.steps + 1 + 1
            · exact Or.inr ⟨"too many steps", by
                simp only [step, List.length_cons, List.length_nil, if_true, if_neg hd4, if_pos hs4]⟩
            have hv4 : chainLookup
                (c.store ++ [bindPars ["f"] [.func ["f"] ffBody nm clos]])
                (c.store.length :: clos) "f" = some (.func ["f"] ffBody nm clos) := by
              simp [chainLookup, getFrame_append_self, bindPars, frameSet, lookupFrame]
            rcases hresb : step n4
                ⟨c.store ++ [bindPars ["f"] [.func ["f"] ffBody nm clos]],
                 c.store.length :: clos, c.depth + 1, c.steps + 1 + 1 + 1,
                 c.maxDepth, c.maxSteps, c.things, c.maxThings⟩
                (.vEv ffBody) with ⟨rvb, cb⟩
            have hlim := ih n4 (by omega)
              ⟨c.store ++ [bindPars ["f"] [.func ["f"] ffBody nm clos]],
               c.store.length :: clos, c.depth + 1, c.steps + 1 + 1 + 1,
               c.maxDepth, c.maxSteps, c.things, c.maxThings⟩ ⟨nm, clos, hv4⟩
            rw [hresb] at hlim
            replace hlim : limitRes rvb := hlim
            rcases hlim with hfo | ⟨mg, hmg⟩
            · subst hfo
              exact Or.inl (by
                simp only [step, List.length_cons, List.length_nil, if_true, if_neg hd4, if_neg hs4, hresb])
            · subst hmg
              exact Or.inr ⟨mg, by
                simp only [step, List.length_cons, List.length_nil, if_true, if_neg hd4, if_neg hs4, hresb]⟩

/-- Auxiliary: with `f` bound to a unary closure whose body is `(f f)`,
evaluating `(f f)` can only end in a resource-limit outcome. -/
theorem ffBody_limit (n : Nat) (c : EvalContext) (h : SelfAppInv c) :
    limitRes (step n c (.ev ffBody)).1 := by
  match n with
  | 0 => exact Or.inl rfl
  | Nat.succ m =>
    by_cases hd : c.maxDepth ≤ c.depth
    · exact Or.inr ⟨"too much nesting", by simp only [step, if_pos hd]⟩
    by_cases hs : c.maxSteps ≤ c.steps
    · exact Or.inr ⟨"too many steps", by simp only [step, if_neg hd, if_pos hs]⟩
    obtain ⟨nm, clos, hf⟩ := h
    rcases hresb : step m { c with depth := c.depth + 1, steps := c.steps + 1 }
        (.vEv ffBody) with ⟨rvb, cb⟩
    have hlim := ffBody_vEv_limit m
      { c with depth := c.depth + 1, steps := c.steps + 1 } ⟨nm, clos, hf⟩
    rw [hresb] at hlim
    replace hlim : limitRes rvb := hlim
    rcases hlim with hfo | ⟨mg, hmg⟩
    · subst hfo
      exact Or.inl (by simp only [step, if_neg hd, if_neg hs, hresb])
    · subst hmg
      exact Or.inr ⟨mg, by simp only [step, if_neg hd, if_neg hs, hresb]⟩

/-- Auxiliary: evaluating `(lambda (f) (f f))` with `lambda` bound to the
lambda builtin either hits a limit or returns the expected closure, leaving
the heap and scope chain unchanged. -/
theorem ffLam_char (n : Nat) (c : EvalContext)
    (hl : chainLookup c.store c.scopes "lambda" = some (.builtin .lambda)) :
    (step n c (.ev ffLam)).1 = .error .fuelOut ∨
    (∃ msg, (step n c (.ev ffLam)).1 = .error (.interp msg)) ∨
    (∃ c', step n c (.ev ffLam)
        = (.ok (.func ["f"] ffBody "anonymous function" c.scopes), c')
      ∧ c'.store = c.store ∧ c'.scopes = c.scopes) := by
  match n with
  | 0 => exact Or.inl rfl
  | Nat.succ n1 =>
    by_cases hd : c.maxDepth ≤ c.depth
    · exact Or.inr (Or.inl ⟨"too much nesting", by simp only [step, if_pos hd]⟩)
    by_cases hs : c.maxSteps ≤ c.steps
    · exact Or.inr (Or.inl ⟨"too many steps", by simp only [step, if_neg hd, if_pos hs]⟩)
    match n1 with
    | 0 => exact Or.inl (by simp only [step, if_neg hd, if_neg hs])
    | Nat.succ n2 =>
      rcases evalSym_char n2 { c with depth := c.depth + 1, steps := c.steps + 1 }
          "lambda" _ hl with e1 | ⟨msg, e2⟩ | e3
      · rcases hp : step n2 { c with depth := c.depth + 1, steps := c.steps + 1 }
            (.ev (.sym "lambda")) with ⟨rv, c1⟩
        rw [hp] at e1
        replace e1 : rv = .error .fuelOut := e1
        subst e1
        exact Or.inl (by simp only [ffLam, step, if_neg hd, if_neg hs, hp])
      · rcases hp : step n2 { c with depth := c.depth + 1, steps := c.steps + 1 }
            (.ev (.sym "lambda")) with ⟨rv, c1⟩
        rw [hp] at e2
        replace e2 : rv = .error (.interp msg) := e2
        subst e2
        exact Or.inr (Or.inl ⟨msg, by simp only [ffLam, step, if_neg hd, if_neg hs, hp]⟩)
      · have key : step (Nat.succ (Nat.succ n2)) c (.ev ffLam)
            = match step n2 { c with depth := c.depth + 1, steps := c.steps + 1 + 1 }
                (.app (.builtin .lambda)
                  [.list [.sym "f"], .list [.sym "f", .sym "f"]]) with
              | (.ok v, c2) => (.ok v, { c2 with depth := c2.depth - 1 })
              | (.error e, c2) => (.error e, c2) := by
          simp only [ffLam, step, if_neg hd, if_neg hs, e3, LispVal.callable,
            LispVal.quotes, BI.quotes, if_true]
        rw [key]
        match n2 with
        | 0 => exact Or.inl rfl
        | 1 => exact Or.inl rfl
        | Nat.succ (Nat.succ n4) =>
          by_cases hq : c.maxThings ≤ c.things
          · refine Or.inr (Or.inl ⟨"too many things", ?_⟩)
            simp [step, EvalContext.new, hq]
          · refine Or.inr (Or.inr ⟨⟨c.store, c.scopes, c.depth, c.steps + 1 + 1,
              c.maxDepth, c.maxSteps, c.things + 1, c.maxThings⟩, ?_, rfl, rfl⟩)
            simp [ffBody, step, EvalContext.new, hq]

/-- Auxiliary: evaluating the self-application `((lambda (f) (f f)) (lambda (f) (f f)))`
with `lambda` bound to the lambda builtin can only end in a resource-limit
outcome. -/
theorem selfApp_limit (n : Nat) (c : EvalContext)
    (hl : chainLookup c.store c.scopes "lambda" = some (.builtin .lambda)) :
    limitRes (step n c (.ev selfApp)).1 := by
  match n with
  | 0 => exact Or.inl rfl
  | Nat.succ n1 =>
    by_cases hd : c.maxDepth ≤ c.depth
    · exact Or.inr ⟨"too much nesting", by simp only [step, if_pos hd]⟩
    by_cases hs : c.maxSteps ≤ c.steps
    · exact Or.inr ⟨"too many steps", by simp only [step, if_neg hd, if_pos hs]⟩
    match n1 with
    | 0 => exact Or.inl (by simp only [step, if_neg hd, if_neg hs])
    | Nat.succ n2 =>
      rcases ffLam_char n2 { c with depth := c.depth + 1, steps := c.steps + 1 } hl
        with f1 | ⟨msg, f2⟩ | ⟨c1, heq, hst, hsc⟩
      · rcases hp : step n2 { c with depth := c.depth + 1, steps := c.steps + 1 }
            (.ev ffLam) with ⟨rv, c2⟩
        rw [hp] at f1
        replace f1 : rv = .error .fuelOut := f1
        subst f1
        exact Or.inl (by simp only [selfApp, step, if_neg hd, if_neg hs, hp])
      · rcases hp : step n2 { c with depth := c.depth + 1, steps := c.steps + 1 }
            (.ev ffLam) with ⟨rv, c2⟩
        rw [hp] at f2
        replace f2 : rv = .error (.interp msg) := f2
        subst f2
        exact Or.inr ⟨msg, by simp only [selfApp, step, if_neg hd, if_neg hs, hp]⟩
      · have key : step (Nat.succ (Nat.succ n2)) c (.ev selfApp)
            = match (match step n2 c1 (.evArgs [ffLam]) with
                     | (Except.error e, c2) => (Except.error e, c2)
                     | (Except.ok vs, c2) => step n2 c2
                         (.app (.func ["f"] ffBody "anonymous function" c.scopes) vs.elems)) with
              | (.ok v, c2) => (.ok v, { c2 with depth := c2.depth - 1 })
              | (.error e, c2) => (.error e, c2) := by
          simp only [selfApp, step, if_neg hd, if_neg hs, heq, LispVal.callable,
            LispVal.quotes, Bool.false_eq_true, if_true, if_false]
        rw [key]
        match n2 with
        | 0 => exact Or.inl rfl
        | Nat.succ n3 =>
          have hl2 : chainLookup c1.store c1.scopes "lambda" = some (.builtin .lambda) := by
            rw [hst, hsc]
            exact hl
          rcases ffLam_char n3 c1 hl2 with g1 | ⟨msg, g2⟩ | ⟨c2, heq2, hst2, hsc2⟩
          · rcases hp2 : step n3 c1 (.ev ffLam) with ⟨rv2, c3⟩
            rw [hp2] at g1
            replace g1 : rv2 = .error .fuelOut := g1
            subst g1
            exact Or.inl (by simp only [step, hp2])
          · rcases hp2 : step n3 c1 (.ev ffLam) with ⟨rv2, c3⟩
            rw [hp2] at g2
            replace g2 : rv2 = .error (.interp msg) := g2
            subst g2
            exact Or.inr ⟨msg, by simp only [step, hp2]⟩
          · rcases evArgsNil_char n3 c2 with k1 | k2
            · rcases hp3 : step n3 c2 (.evArgs []) with ⟨rv3, c3⟩
              rw [hp3] at k1
              replace k1 : rv3 = .error .fuelOut := k1
              subst k1
              exact Or.inl (by simp only [step, heq2, hp3])
            · have hv4 : chainLookup
                  (c2.store ++ [bindPars ["f"]
                    [.func ["f"] ffBody "anonymous function" c1.scopes]])
                  (c2.store.length :: c.scopes) "f"
                  = some (.func ["f"] ffBody "anonymous function" c1.scopes) := by
                simp [chainLookup, getFrame_append_self, bindPars, frameSet, lookupFrame]
              rcases hresb : step n3
                  ⟨c2.store ++ [bindPars ["f"]
                    [.func ["f"] ffBody "anonymous function" c1.scopes]],
                   c2.store.length :: c.scopes, c2.depth, c2.steps,
                   c2.maxDepth, c2.maxSteps, c2.things, c2.maxThings⟩
                  (.ev ffBody) with ⟨rvb, cb⟩
              have hlim := ffBody_limit n3
                ⟨c2.store ++ [bindPars ["f"]
                  [.func ["f"] ffBody "anonymous function" c1.scopes]],
                 c2.store.length :: c.scopes, c2.depth, c2.steps,
                 c2.maxDepth, c2.maxSteps, c2.things, c2.maxThings⟩
                ⟨"anonymous function", c1.scopes, hv4⟩
              rw [hresb] at hlim
              replace hlim : limitRes rvb := hlim
              rcases hlim with hfo | ⟨mg, hmg⟩
              · subst hfo
                exact Or.inl (by
                  simp only [step, heq2, k2, LispVal.elems, List.length_cons,
                    List.length_nil, if_true, hresb])
              · subst hmg
                exact Or.inr ⟨mg, by
                  simp only [step, heq2, k2, LispVal.elems, List.length_cons,
                    List.length_nil, if_true, hresb]⟩

/-- C3: For every context and task, evaluation terminates: some fuel bound
fixes the result of the embedding and that result is not the fuel artifact
(so the source recursion, which the fuel majorizes, ends).  In particular,
for every configured `max_depth`, `max_steps` and `max_things`, evaluating
the unbounded self-application `((lambda (f) (f f)) (lambda (f) (f f)))`
in a standard context ends in a resource-limit `InterpreterError` rather
than running forever. -/
theorem c3_termination_self_application :
    (∀ (c : EvalContext) (t : Task), Converges c t) ∧
    (∀ maxDepth maxSteps maxThings : Nat, ∃ n0 msg, ∀ m, n0 ≤ m →
      (step m (stdCtx maxDepth maxSteps maxThings) (.ev selfApp)).1
        = .error (.interp msg)) := by
  refine ⟨stepConverges, ?_⟩
  intro d s th
  obtain ⟨n0, r, hstab, hnf, -, -⟩ := stepConverges (stdCtx d s th) (.ev selfApp)
  have hl : chainLookup (stdCtx d s th).store (stdCtx d s th).scopes "lambda"
      = some (.builtin .lambda) := rfl
  have hlim := selfApp_limit n0 (stdCtx d s th) hl
  rw [hstab n0 le_rfl] at hlim
  rcases hlim with hfo | ⟨msg, hmsg⟩
  · exact absurd hfo hnf
  · exact ⟨n0, msg, fun m hm => by rw [hstab m hm, hmsg]⟩

end Parthial
